import Mathlib

/-!
# Verification of the DecimalConverter conversion core

This file gives a shallow embedding of the numeric/parsing core of the
`DecimalConverter` repository (files `decimal_convertor.py` and
`android/main.py`; the two files contain the same conversion logic, so one
embedding covers both) and proves/refutes the frozen claims about it.

Modelling conventions:

* Python `fractions.Fraction` values are Lean `ℚ` (both are reduced
  fractions with positive denominator).
* Python `float`s are modelled exactly: an IEEE-754 binary64 value is a
  rational number, and every float operation rounds its exact rational
  result to 53 significant bits, round-to-nearest, ties-to-even
  (`toDouble` below).  The exponent is not clamped below (subnormal
  values keep 53 bits in the model), and overflow (magnitude reaching
  2^1024) is modelled explicitly where the claims need it.  Every value
  appearing in a claim is far inside the normal range.  Signed zero is
  not modelled (it only affects the printed sign of `-0.0`, which no
  claim touches).
* Strings are modelled as `List Char`; `str.split()` / `str.strip()` are
  modelled on ASCII whitespace.  Numeric-literal underscores and
  non-ASCII digits, which CPython's `int` / `float` / `Fraction` string
  grammars accept, are not modelled; no claim involves them.
* `Fraction("3/0")` raises `ZeroDivisionError`; every call site catches
  it together with `ValueError`, so the model folds both into a parse
  failure.

Because core's `Rat.add`, `Rat.mul`, `Rat.sub`, `Rat.inv` are
`@[irreducible]`, the executable definitions below use a small
arithmetic layer (`qadd`, `qmul`, ...) built from `Rat.divInt`, which
the kernel evaluates; each layer function is proved equal to the
corresponding field operation on `ℚ`.
-/

/-! ## Computable rational arithmetic layer -/

/-- Addition on `ℚ` via `Rat.divInt` (kernel-computable). -/
def qadd (a b : ℚ) : ℚ := Rat.divInt (a.num * b.den + b.num * a.den) (a.den * b.den)

/-- Negation on `ℚ` via `Rat.divInt` (kernel-computable). -/
def qneg (a : ℚ) : ℚ := Rat.divInt (-a.num) a.den

/-- Subtraction on `ℚ` via `Rat.divInt` (kernel-computable). -/
def qsub (a b : ℚ) : ℚ := Rat.divInt (a.num * b.den - b.num * a.den) (a.den * b.den)

/-- Multiplication on `ℚ` via `Rat.divInt` (kernel-computable). -/
def qmul (a b : ℚ) : ℚ := Rat.divInt (a.num * b.num) (a.den * b.den)

/-- Division on `ℚ` via `Rat.divInt` (kernel-computable). -/
def qdiv (a b : ℚ) : ℚ := Rat.divInt (a.num * b.den) (a.den * b.num)

/-- Absolute value on `ℚ` via `Rat.divInt` (kernel-computable). -/
def qabs (a : ℚ) : ℚ := Rat.divInt (a.num.natAbs) a.den

theorem qadd_eq (a b : ℚ) : qadd a b = a + b := by
  rw [qadd, Rat.divInt_eq_div]
  conv_rhs => rw [← Rat.num_div_den a, ← Rat.num_div_den b]
  have ha : ((a.den : ℤ) : ℚ) ≠ 0 := by positivity
  have hb : ((b.den : ℤ) : ℚ) ≠ 0 := by positivity
  push_cast at ha hb ⊢
  field_simp

theorem qneg_eq (a : ℚ) : qneg a = -a := by
  rw [qneg, Rat.divInt_eq_div]
  conv_rhs => rw [← Rat.num_div_den a]
  push_cast
  rw [neg_div]

theorem qsub_eq (a b : ℚ) : qsub a b = a - b := by
  rw [qsub, Rat.divInt_eq_div]
  conv_rhs => rw [← Rat.num_div_den a, ← Rat.num_div_den b]
  have ha : ((a.den : ℤ) : ℚ) ≠ 0 := by positivity
  have hb : ((b.den : ℤ) : ℚ) ≠ 0 := by positivity
  push_cast at ha hb ⊢
  field_simp
  ring

theorem qmul_eq (a b : ℚ) : qmul a b = a * b := by
  rw [qmul, Rat.divInt_eq_div]
  conv_rhs => rw [← Rat.num_div_den a, ← Rat.num_div_den b]
  push_cast
  rw [div_mul_div_comm]

theorem qdiv_eq (a b : ℚ) : qdiv a b = a / b := by
  rcases eq_or_ne b 0 with rfl | hb
  · simp [qdiv, Rat.divInt_eq_div]
  · rw [qdiv, Rat.divInt_eq_div]
    conv_rhs => rw [← Rat.num_div_den a, ← Rat.num_div_den b]
    have ha : ((a.den : ℤ) : ℚ) ≠ 0 := by positivity
    have hbd : ((b.den : ℤ) : ℚ) ≠ 0 := by positivity
    have hbn : ((b.num : ℤ) : ℚ) ≠ 0 := by
      simpa using Rat.num_ne_zero.mpr hb
    push_cast at ha hbd hbn ⊢
    field_simp

theorem qabs_eq (a : ℚ) : qabs a = |a| := by
  rcases le_or_lt 0 a with h | h
  · rw [abs_of_nonneg h, qabs, Int.natAbs_of_nonneg (Rat.num_nonneg.mpr h),
      Rat.divInt_eq_div]
    push_cast
    exact Rat.num_div_den a
  · rw [abs_of_neg h, qabs, ← Int.natAbs_neg,
      Int.natAbs_of_nonneg (by simpa using (Rat.num_neg.mpr h).le : 0 ≤ -a.num),
      Rat.divInt_eq_div]
    conv_rhs => rw [← Rat.num_div_den a]
    push_cast
    rw [neg_div]

/-! ## The binary64 (`float`) model -/

/-- `⌊log₂ n⌋` for positive `n`, fuel-driven so that the kernel can
evaluate it (`Nat.log2` is defined by well-founded recursion, which the
kernel does not unfold). -/
def log2F : ℕ → ℕ → ℕ
  | 0, _ => 0
  | fuel + 1, n => if 2 ≤ n then log2F fuel (n / 2) + 1 else 0

/-- `2 ^ e` as a rational, for an integer exponent. -/
def pow2 (e : ℤ) : ℚ :=
  if 0 ≤ e then ((2 ^ e.toNat : ℕ) : ℚ) else Rat.divInt 1 (2 ^ (-e).toNat : ℕ)

/-- `10 ^ e` as a rational, for an integer exponent. -/
def pow10 (e : ℤ) : ℚ :=
  if 0 ≤ e then ((10 ^ e.toNat : ℕ) : ℚ) else Rat.divInt 1 (10 ^ (-e).toNat : ℕ)

/-- Round a rational to the nearest integer, ties to even (the IEEE-754
default rounding used by every Python float operation). -/
def roundHalfEven (q : ℚ) : ℤ :=
  let f := ⌊q⌋
  let r := qsub q (f : ℚ)
  if r < mkRat 1 2 then f
  else if mkRat 1 2 < r then f + 1
  else if f % 2 = 0 then f else f + 1

/-- `⌊log₂ q⌋` for a positive rational `q`. -/
def ratLog2 (q : ℚ) : ℤ :=
  let la : ℤ := log2F q.num.toNat q.num.toNat
  let lb : ℤ := log2F q.den q.den
  if pow2 (la - lb) ≤ q then la - lb else la - lb - 1

/-- Round a positive rational to 53 significant bits (round to nearest,
ties to even).  This is the value an IEEE-754 binary64 operation
returns for a positive exact result in the normal range. -/
def toDoublePos (q : ℚ) : ℚ :=
  let e := ratLog2 q
  ((roundHalfEven (qmul q (pow2 (52 - e))) : ℚ) |> fun m => qmul m (pow2 (e - 52)))

/-- Round a rational to the nearest IEEE-754 binary64 value (unbounded
exponent; see the header comment). -/
def toDouble (q : ℚ) : ℚ :=
  if q < 0 then qneg (toDoublePos (qneg q)) else if q = 0 then 0 else toDoublePos q

/-- The float product `a * b` (exact product, then binary64 rounding). -/
def mulD (a b : ℚ) : ℚ := toDouble (qmul a b)

/-- The float quotient `a / b` (exact quotient, then binary64 rounding). -/
def divD (a b : ℚ) : ℚ := toDouble (qdiv a b)

/-- The binary64 value of the literal `25.4` (`MM_PER_INCH` in both
source files). -/
def mmD : ℚ := toDouble (Rat.divInt 127 5)

/-- Magnitudes reaching `2 ^ 1024` do not exist as binary64 values. -/
def overflowBound : ℚ := ((2 ^ 1024 : ℕ) : ℚ)

/-- `float(x)` applied to an exact `Fraction`: correctly rounded, but
raising `OverflowError` (modelled as `none`) when the rounded magnitude
reaches `2 ^ 1024`. -/
def floatE (q : ℚ) : Option ℚ :=
  let d := toDouble q
  if qabs d < overflowBound then some d else none

/-! ## `Fraction.limit_denominator` (CPython `fractions.py`)

The repository calls `Fraction(inches).limit_denominator(64)`.  The
stdlib routine walks the continued-fraction expansion of `self` and
then chooses between the last convergent `p1/q1` and the best
semiconvergent `(p0 + k*p1)/(q0 + k*q1)`.  The loop is embedded with
explicit fuel; the current remainder denominator `d` strictly decreases
at every iteration, so fuel `x.den` (the initial `d`) always suffices. -/

/-- The continued-fraction loop of `Fraction.limit_denominator`.  State
`(p0, q0, p1, q1, n, d)` as in the Python source; `a = n // d` uses
Python floor division (`Int.fdiv`). -/
def ldLoop (maxd : ℤ) : ℕ → ℤ → ℤ → ℤ → ℤ → ℤ → ℤ → ℤ × ℤ × ℤ × ℤ × ℤ × ℤ
  | 0, p0, q0, p1, q1, n, d => (p0, q0, p1, q1, n, d)
  | fuel + 1, p0, q0, p1, q1, n, d =>
    let a := n.fdiv d
    let q2 := q0 + a * q1
    if maxd < q2 then (p0, q0, p1, q1, n, d)
    else ldLoop maxd fuel p1 q1 (p0 + a * p1) q2 d (n - a * d)

/-- `Fraction.limit_denominator(maxd)` from CPython's `fractions.py`
(the `max_denominator < 1` guard is irrelevant here: the repository
only calls it with `max_denominator = 64`). -/
def limit_denominator (x : ℚ) (maxd : ℕ) : ℚ :=
  if x.den ≤ maxd then x
  else
    match ldLoop maxd x.den 0 1 1 0 x.num x.den with
    | (p0, q0, p1, q1, _, d) =>
      let k := ((maxd : ℤ) - q0).fdiv q1
      if 2 * d * (q0 + k * q1) ≤ (x.den : ℤ) then mkRat p1 q1.toNat
      else mkRat (p0 + k * p1) (q0 + k * q1).toNat

/-! ## `COMMON_FRACTIONS` -/

/-- The generator expression behind `COMMON_FRACTIONS`:
`Fraction(n, d) for d in [2,4,8,16,32,64] for n in range(1, d)
if Fraction(n, d).denominator == d`. -/
def commonFractionsRaw : List ℚ :=
  ([2, 4, 8, 16, 32, 64] : List ℕ).flatMap fun d =>
    ((List.range' 1 (d - 1)).map fun n => mkRat n d).filter fun f => f.den = d

/-- `COMMON_FRACTIONS = sorted(set(...))`: the deduplicated generator
output, sorted ascending (identical in both source files). -/
def commonFractions : List ℚ :=
  commonFractionsRaw.dedup.insertionSort (· ≤ ·)

/-! ## String parsing

Python strings are modelled as `List Char`.  `pyWS` is the ASCII part
of Python's `str.split()` / `str.strip()` whitespace. -/

/-- ASCII whitespace, as recognised by `str.split()` / `str.strip()`. -/
def pyWS (c : Char) : Bool :=
  c == ' ' || c == '\t' || c == '\n' || c == '\r' || c == '\x0b' || c == '\x0c'

/-- `str.strip()`: drop leading and trailing whitespace. -/
def pyStrip (l : List Char) : List Char :=
  ((l.dropWhile pyWS).reverse.dropWhile pyWS).reverse

/-- Worker for `pyTokens`, accumulating the current word (reversed). -/
def pyTokensAux : List Char → List Char → List (List Char)
  | [], acc => if acc.isEmpty then [] else [acc.reverse]
  | c :: cs, acc =>
    if pyWS c then
      if acc.isEmpty then pyTokensAux cs [] else acc.reverse :: pyTokensAux cs []
    else pyTokensAux cs (c :: acc)

/-- `str.split()` with no arguments: split on runs of whitespace,
discarding leading/trailing whitespace. -/
def pyTokens (l : List Char) : List (List Char) := pyTokensAux l []

/-- Numeric value of a digit string (most significant first). -/
def digitsVal (l : List Char) : ℕ :=
  l.foldl (fun acc c => 10 * acc + (c.toNat - '0'.toNat)) 0

/-- An optional leading `+`/`-` sign. -/
def splitSign : List Char → ℤ × List Char
  | [] => (1, [])
  | c :: r => if c = '+' then (1, r) else if c = '-' then (-1, r) else (1, c :: r)

/-- `int(token)` on a whitespace-free token: optional sign then a
nonempty run of digits. -/
def pyInt (l : List Char) : Option ℤ :=
  let sg := (splitSign l).1
  let ds := ((splitSign l).2.span Char.isDigit).1
  if ds.isEmpty || !((splitSign l).2.span Char.isDigit).2.isEmpty then none
  else some (sg * digitsVal ds)

/-- The optional exponent suffix of the `Fraction` / `float` grammars:
sign then a nonempty run of digits, consuming the whole rest. -/
def parseExp (l : List Char) : Option ℤ :=
  let sg := (splitSign l).1
  let ds := ((splitSign l).2.span Char.isDigit).1
  if ds.isEmpty || !((splitSign l).2.span Char.isDigit).2.isEmpty then none
  else some (sg * digitsVal ds)

/-- The mantissa value `intpart.fracpart` as an exact rational. -/
def mantissaVal (ds ds2 : List Char) : ℚ :=
  qadd (digitsVal ds : ℚ) (Rat.divInt (digitsVal ds2) ((10 : ℕ) ^ ds2.length))

/-- `Fraction(token)` on a whitespace-free token — CPython's
`_RATIONAL_FORMAT` regular expression and the value it denotes:
`sign? (digits ('/' digits | '.' digits? exp? | exp?) | '.' digits exp?)`.
A zero denominator (`ZeroDivisionError`) is folded into `none`; every
call site catches `ZeroDivisionError` together with `ValueError`. -/
def pyFraction (l : List Char) : Option ℚ :=
  let sg := (splitSign l).1
  let l1 := (splitSign l).2
  let ds := (l1.span Char.isDigit).1
  match (l1.span Char.isDigit).2 with
  | [] => if ds.isEmpty then none else some (qmul (sg : ℚ) (digitsVal ds : ℚ))
  | c1 :: r2 =>
    if c1 = '/' then
      if ds.isEmpty then none
      else
        let ds2 := (r2.span Char.isDigit).1
        if ds2.isEmpty || !(r2.span Char.isDigit).2.isEmpty then none
        else if digitsVal ds2 = 0 then none
        else some (qmul (sg : ℚ) (Rat.divInt (digitsVal ds) (digitsVal ds2)))
    else if c1 = '.' then
      let ds2 := (r2.span Char.isDigit).1
      if ds.isEmpty && ds2.isEmpty then none
      else
        match (r2.span Char.isDigit).2 with
        | [] => some (qmul (sg : ℚ) (mantissaVal ds ds2))
        | c2 :: r4 =>
          if c2 = 'e' ∨ c2 = 'E' then
            (parseExp r4).map fun ex => qmul (sg : ℚ) (qmul (mantissaVal ds ds2) (pow10 ex))
          else none
    else if c1 = 'e' ∨ c1 = 'E' then
      if ds.isEmpty then none
      else (parseExp r2).map fun ex => qmul (sg : ℚ) (qmul (digitsVal ds : ℚ) (pow10 ex))
    else none

/-- A Python `float` value: finite (an exact binary64 rational), one of
the two infinities, or NaN. -/
inductive FloatVal where
  | fin (q : ℚ)
  | inf
  | ninf
  | nan
deriving DecidableEq

/-- `float(decimal-string-value)`: correctly rounded, overflowing to the
appropriately signed infinity (C `strtod` semantics: `float("1e400")`
is `inf`, no exception). -/
def mkFloat (q : ℚ) : FloatVal :=
  let d := toDouble q
  if overflowBound ≤ d then .inf
  else if d ≤ qneg overflowBound then .ninf
  else .fin d

/-- `float(token)` on a whitespace-free token: case-insensitive
`inf` / `infinity` / `nan` with optional sign, or the decimal grammar
`sign? (digits ('.' digits?)? | '.' digits) exp?`. -/
def pyFloat (l : List Char) : Option FloatVal :=
  let sg := (splitSign l).1
  let l1 := (splitSign l).2
  let low := l1.map Char.toLower
  if low = ['i', 'n', 'f'] || low = ['i', 'n', 'f', 'i', 'n', 'i', 't', 'y'] then
    some (if sg = 1 then .inf else .ninf)
  else if low = ['n', 'a', 'n'] then some .nan
  else
    let ds := (l1.span Char.isDigit).1
    match (l1.span Char.isDigit).2 with
    | [] => if ds.isEmpty then none else some (mkFloat (qmul (sg : ℚ) (digitsVal ds : ℚ)))
    | c1 :: r2 =>
      if c1 = '.' then
        let ds2 := (r2.span Char.isDigit).1
        if ds.isEmpty && ds2.isEmpty then none
        else
          match (r2.span Char.isDigit).2 with
          | [] => some (mkFloat (qmul (sg : ℚ) (mantissaVal ds ds2)))
          | c2 :: r4 =>
            if c2 = 'e' ∨ c2 = 'E' then
              (parseExp r4).map fun ex =>
                mkFloat (qmul (sg : ℚ) (qmul (mantissaVal ds ds2) (pow10 ex)))
            else none
      else if c1 = 'e' ∨ c1 = 'E' then
        if ds.isEmpty then none
        else (parseExp r2).map fun ex =>
          mkFloat (qmul (sg : ℚ) (qmul (digitsVal ds : ℚ) (pow10 ex)))
      else none

/-- Python's `v < 0` on a float value (false for NaN). -/
def floatLt0 : FloatVal → Bool
  | .fin q => decide (q < 0)
  | .ninf => true
  | _ => false

/-- Python's `v >= 0` on a float value (false for NaN). -/
def floatGe0 : FloatVal → Bool
  | .fin q => decide (0 ≤ q)
  | .inf => true
  | _ => false

/-! ## Output formatting -/

/-- Decimal digits of an integer (Python `str(int)`). -/
def intRepr (i : ℤ) : String :=
  if i < 0 then "-" ++ Nat.repr i.natAbs else Nat.repr i.natAbs

/-- Zero-padding the fractional digits of a fixed-point rendering. -/
def padZeros (prec : ℕ) (fp : ℕ) : String :=
  let s := Nat.repr fp
  String.mk (List.replicate (prec - s.length) '0') ++ s

/-- Fixed-point rendering of a nonnegative rational with `prec`
fractional digits, round half to even — what `f"{x:.6f}"` /
`f"{x:.4f}"` print for a finite nonnegative double `x`. -/
def formatFixedNN (q : ℚ) (prec : ℕ) : String :=
  let n := (roundHalfEven (qmul q ((10 ^ prec : ℕ) : ℚ))).toNat
  Nat.repr (n / 10 ^ prec) ++ "." ++ padZeros prec (n % 10 ^ prec)

/-- Fixed-point rendering of a finite double. -/
def formatFixed (q : ℚ) (prec : ℕ) : String :=
  if q < 0 then "-" ++ formatFixedNN (qneg q) prec else formatFixedNN q prec

/-- Python `str(Fraction)`: `"n/d"`, or just `"n"` when `d = 1`. -/
def fracRepr (q : ℚ) : String :=
  if q.den = 1 then intRepr q.num else intRepr q.num ++ "/" ++ Nat.repr q.den

/-- Python `int(x)` on a rational: truncation toward zero. -/
def intTrunc (q : ℚ) : ℤ := q.num.tdiv q.den

/-- The mixed-number rendering of `_convert_mm`:
`whole = int(nearest); remainder = nearest - whole`, printed as
`str(remainder)`, `str(whole)`, or `f"{whole} {remainder}"`. -/
def mixedRepr (q : ℚ) : String :=
  let whole := intTrunc q
  let remainder := qsub q (whole : ℚ)
  if whole = 0 then fracRepr remainder
  else if remainder = 0 then intRepr whole
  else intRepr whole ++ " " ++ fracRepr remainder

/-! ## The three conversion handlers

Each models the body of the corresponding Tkinter/Kivy callback
(`_convert_fraction`, `_convert_inches`, `_convert_mm` /
`FractionTab._convert`, `InchesMMTab._convert`, `MMInchesTab._convert`),
from the raw text of the entry widget to what ends up in the result
labels.  A `crash` value records an exception that escapes the
handler's `try/except` (the callback dies with a traceback). -/

/-- Outcome of the Fraction → Decimal tab. -/
inductive FracOut where
  | ok (dec : String)
  | parseError
  | negative
  | crash
deriving DecidableEq

/-- `_convert_fraction`: `Fraction(text.strip())` (ValueError /
ZeroDivisionError → error label), negative check, then
`f"{float(frac):.6f}"` — where `float(frac)` can raise an uncaught
`OverflowError`, since it sits outside the `try` block. -/
def convert_fraction (input : List Char) : FracOut :=
  match pyFraction (pyStrip input) with
  | none => .parseError
  | some f =>
    if f < 0 then .negative
    else
      match floatE f with
      | some d => .ok (formatFixed d 6)
      | none => .crash

/-- Result of the parsing phase (the `try` block) of `_convert_inches`:
a parsed float value, a caught `ValueError`/`ZeroDivisionError`, or an
uncaught `OverflowError` from `float(...)` (which is *not* in the
handler's `except` tuple). -/
inductive InchesParse where
  | val (q : ℚ)
  | perr
  | ovf
deriving DecidableEq

/-- The `try` block of `_convert_inches` on the stripped input:
`parts = raw.split()`; two tokens → `float(int(parts[0]) + Fraction(parts[1]))`;
one token → `float(Fraction(raw))`; otherwise `raise ValueError`. -/
def inches_parse (raw : List Char) : InchesParse :=
  match pyTokens raw with
  | [t1, t2] =>
    match pyInt t1, pyFraction t2 with
    | some w, some f =>
      match floatE (qadd (w : ℚ) f) with
      | some d => .val d
      | none => .ovf
    | _, _ => .perr
  | [_] =>
    match pyFraction raw with
    | some f =>
      match floatE f with
      | some d => .val d
      | none => .ovf
    | none => .perr
  | _ => .perr

/-- Outcome of the Inches → Millimeters tab. -/
inductive InchesOut where
  | ok (mm : String)
  | parseError
  | negative
  | crash
deriving DecidableEq

/-- `_convert_inches`: parse, negative check, then
`f"{inches * MM_PER_INCH:.4f}"`. -/
def convert_inches (input : List Char) : InchesOut :=
  match inches_parse (pyStrip input) with
  | .perr => .parseError
  | .ovf => .crash
  | .val d => if d < 0 then .negative else .ok (formatFixed (mulD d mmD) 4)

/-- `inches = mm / MM_PER_INCH` (binary64 division). -/
def inchesOfMM (mm : ℚ) : ℚ := divD mm mmD

/-- `Fraction(inches).limit_denominator(64)` — the nearest-fraction
value of the Millimeters → Inches tab for a finite input. -/
def nearestOf (mm : ℚ) : ℚ := limit_denominator (inchesOfMM mm) 64

/-- Outcome of the Millimeters → Inches tab. -/
inductive MMOut where
  | ok (dec : String) (frac : String)
  | notNumeric
  | negative
  | crash
deriving DecidableEq

/-- `_convert_mm`: `float(text.strip())` (only `ValueError` caught),
negative check, `f"{inches:.6f}"`, then
`Fraction(inches).limit_denominator(64)` and mixed-number display.
For an `inf`/`nan` input the negative check passes and
`Fraction(inches)` raises an uncaught `OverflowError`/`ValueError`
outside the `try` block. -/
def convert_mm (input : List Char) : MMOut :=
  match pyFloat (pyStrip input) with
  | none => .notNumeric
  | some v =>
    if floatLt0 v then .negative
    else
      match v with
      | .fin mm => .ok (formatFixed (inchesOfMM mm) 6) (mixedRepr (nearestOf mm))
      | _ => .crash

/-! ## Claim C1: contents and size of `COMMON_FRACTIONS` -/

set_option maxRecDepth 40000

/-- C1, counterexample: `COMMON_FRACTIONS` has 63 entries
(`φ(2)+φ(4)+φ(8)+φ(16)+φ(32)+φ(64) = 1+2+4+8+16+32`), not 96 as the
claim states. -/
theorem c1_counterexample : commonFractions.length ≠ 96 := by decide

/-- C1, amended: for every `d` in `{2,4,8,16,32,64}` and every
`n ∈ [1, d-1]` with `gcd(n, d) = 1`, the fraction `n/d` appears exactly
once in `COMMON_FRACTIONS`, and the total number of entries is 63
(not 96). -/
theorem c1_amended :
    (∀ d ∈ ([2, 4, 8, 16, 32, 64] : List ℕ), ∀ n ∈ List.range' 1 (d - 1),
      Nat.Coprime n d → commonFractions.count (mkRat n d) = 1)
    ∧ commonFractions.length = 63 := by
  constructor
  · decide
  · decide

/-- C1, witness: instantiating the amended claim at `d = 64`, `n = 63`. -/
theorem c1_amended_witness :
    commonFractions.count (mkRat 63 64) = 1 ∧ commonFractions.length = 63 :=
  ⟨c1_amended.1 64 (by decide) 63 (by decide) (by decide), c1_amended.2⟩

/-! ## Claim C2: exact round trip over `COMMON_FRACTIONS` -/

/-- C2: for every entry `r` of `COMMON_FRACTIONS`, converting `r` to a
decimal (binary64) inch value, then to millimeters (binary64 `* 25.4`),
then back through the millimeter tab (binary64 `/ 25.4` followed by
`Fraction(...).limit_denominator(64)`) returns exactly `r` as the
nearest fraction. -/
theorem c2_roundtrip :
    ∀ r ∈ commonFractions, nearestOf (mulD (toDouble r) mmD) = r := by decide

/-- C2, witness: the round trip at `r = 1/2`. -/
theorem c2_roundtrip_witness : nearestOf (mulD (toDouble (mkRat 1 2)) mmD) = mkRat 1 2 :=
  c2_roundtrip (mkRat 1 2) (by decide)

/-! ## Claim C4: exceptions escaping the handlers -/

/-- C4: inputs on which an exception escapes each handler, contradicting
the all-errors-are-values policy: `float("inf")` / `float("nan")` pass
the (only-`ValueError`) `except` and the negative check of
`_convert_mm`, then `Fraction(inf)` / `Fraction(nan)` raises an
uncaught `OverflowError` / `ValueError`; `"1e400"` parses as the exact
Fraction `10^400` in the other two handlers and `float(...)` then
raises `OverflowError`, which is not in their `except` tuples. -/
theorem c4_uncaught_exceptions :
    convert_mm "inf".toList = .crash
    ∧ convert_mm "nan".toList = .crash
    ∧ convert_inches "1e400".toList = .crash
    ∧ convert_fraction "1e400".toList = .crash := by
  refine ⟨by decide, by decide, by decide, by decide⟩

/-! ## Claim C9: the 9.525 mm example -/

/-- C9: `_convert_mm` on the input `"9.525"` displays decimal inches
`"0.375000"` and nearest fraction `"3/8"`. -/
theorem c9_9525mm : convert_mm "9.525".toList = .ok "0.375000" "3/8" := by decide

/-! ## Claim C3, counterexample -/

/-- C3, counterexample: on the nonnegative millimeter input `"8.4667"`
(the binary64 value of 8.4667), the nearest fraction computed by
`_convert_mm` is `1/3`, whose denominator 3 does not divide 64 —
`limit_denominator(64)` bounds the denominator by 64 but does not
restrict it to divisors of 64. -/
theorem c3_counterexample :
    pyFloat "8.4667".toList = some (.fin (toDouble (mkRat 84667 10000)))
    ∧ (0 : ℚ) ≤ toDouble (mkRat 84667 10000)
    ∧ (nearestOf (toDouble (mkRat 84667 10000))).den = 3
    ∧ ¬ (nearestOf (toDouble (mkRat 84667 10000))).den ∣ 64 := by
  refine ⟨by decide, by decide, by decide, by decide⟩

/-! ## Claim C5: mixed-number parsing and the sign of the whole part -/

/-- C5, counterexample: `_convert_inches` parses `"-1 3/8"` as
`int("-1") + Fraction("3/8") = -5/8`, not `-11/8`: the fractional part
is added to the (negative) whole part, the sign is not applied to the
combined value. -/
theorem c5_counterexample :
    inches_parse "-1 3/8".toList = .val (mkRat (-5) 8)
    ∧ mkRat (-5) 8 ≠ mkRat (-11) 8 := by
  refine ⟨by decide, by decide⟩

/-- C5, amended: for every input splitting into exactly two tokens, the
first accepted by `int` as `w` and the second accepted by `Fraction` as
`f`, the parse phase of `_convert_inches` yields the binary64 value of
`w + f` (the fractional part is always added, so a negative whole part
gives `w + f`, not `-( |w| + f )`); in particular `"1 3/8" ↦ 11/8` and
`"-1 3/8" ↦ -5/8`. -/
theorem c5_amended (raw t1 t2 : List Char) (w : ℤ) (f v : ℚ)
    (ht : pyTokens raw = [t1, t2]) (hw : pyInt t1 = some w)
    (hf : pyFraction t2 = some f) (hv : floatE (qadd (w : ℚ) f) = some v) :
    inches_parse raw = .val v := by
  unfold inches_parse
  rw [ht]
  simp only [hw, hf, hv]

/-- C5, witness: the amended claim applied to `"1 3/8"`, giving the
value `11/8`. -/
theorem c5_amended_witness : inches_parse "1 3/8".toList = .val (mkRat 11 8) :=
  c5_amended _ "1".toList "3/8".toList 1 (mkRat 3 8) (mkRat 11 8)
    (by decide) (by decide) (by decide) (by decide)

/-! ## Claim C6: which inputs give a parse error -/

/-- C6, counterexample: `"1 0.375"` does *not* produce a parse error in
`_convert_inches`: `Fraction("0.375")` succeeds (the second token may
be any `Fraction`-accepted string, not only `n/d`), so the input parses
to `1 + 3/8 = 11/8`. -/
theorem c6_counterexample :
    inches_parse "1 0.375".toList = .val (mkRat 11 8)
    ∧ inches_parse "1 0.375".toList ≠ .perr := by
  refine ⟨by decide, by decide⟩

/-- C6, amended: the `_convert_inches` parse fails (the handler shows
the parse-error message) on the empty string, a zero denominator, a
doubled slash, a non-numeric token, more than two whitespace-separated
segments, and a two-token input whose second token is not accepted by
the `Fraction` grammar — but a two-token input with a decimal second
token such as `"1 0.375"` is accepted and parses to `11/8`. -/
theorem c6_amended :
    inches_parse "".toList = .perr
    ∧ inches_parse "3/0".toList = .perr
    ∧ inches_parse "3//8".toList = .perr
    ∧ inches_parse "abc".toList = .perr
    ∧ inches_parse "1 2 3".toList = .perr
    ∧ inches_parse "1 3//8".toList = .perr
    ∧ inches_parse "1 0.375".toList = .val (mkRat 11 8) := by
  refine ⟨by decide, by decide, by decide, by decide, by decide, by decide, by decide⟩

/-! ## Claim C8: invariants of `COMMON_FRACTIONS` -/

/-- C8: every entry of `COMMON_FRACTIONS` lies strictly between 0
and 1, is reduced, and has a denominator dividing 64 (hence a power of
two at most 64) and greater than 1; the list is strictly sorted
ascending (hence deduplicated).  The constant is never modified: in
this embedding it is a definition, and neither source file writes to
`COMMON_FRACTIONS` after module initialisation. -/
theorem c8_invariants :
    (∀ r ∈ commonFractions,
      0 < r ∧ r < 1 ∧ r.den ∣ 64 ∧ 1 < r.den ∧ r.num.natAbs.Coprime r.den)
    ∧ List.Sorted (· < ·) commonFractions
    ∧ commonFractions.Nodup := by
  refine ⟨by decide, by decide, ?_⟩
  have h : List.Sorted (· < ·) commonFractions := by decide
  exact h.nodup

/-- C8, witness: the invariant instantiated at the entry `1/2`. -/
theorem c8_invariants_witness :
    0 < mkRat 1 2 ∧ mkRat 1 2 < 1 ∧ (mkRat 1 2).den ∣ 64 ∧ 1 < (mkRat 1 2).den
    ∧ (mkRat 1 2).num.natAbs.Coprime (mkRat 1 2).den :=
  c8_invariants.1 (mkRat 1 2) (by decide)

/-! ## Claim C3: best-approximation property of `limit_denominator`

`limit_denominator(64)` returns, among all fractions with denominator
at most 64 (not: dividing 64), one closest to its argument, preferring
the smaller denominator on a tie.  The proof follows the classical
continued-fraction argument: the loop state always satisfies `LDInv`
below, at the break the two candidate fractions are Farey neighbours
that bracket the input, and any other fraction strictly between two
Farey neighbours has denominator at least the sum of theirs. -/

/-- `(x.num : ℚ) = x * x.den`. -/
theorem num_eq_mul_den (x : ℚ) : (x.num : ℚ) = x * x.den := by
  nth_rewrite 2 [← Rat.num_div_den x]
  field_simp

/-- Two distinct rationals differ by at least one over the product of
their denominators. -/
theorem dist_lb (a b : ℚ) (h : a ≠ b) :
    1 / ((a.den : ℚ) * (b.den : ℚ)) ≤ |a - b| := by
  have hd : (0 : ℚ) < (a.den : ℚ) * (b.den : ℚ) := by positivity
  have key : (a - b) * ((a.den : ℚ) * (b.den : ℚ))
      = ((a.num * b.den - b.num * a.den : ℤ) : ℚ) := by
    push_cast
    rw [num_eq_mul_den a, num_eq_mul_den b]
    ring
  have hz : (a.num * b.den - b.num * a.den : ℤ) ≠ 0 := by
    intro h0
    apply h
    have h1 : (a - b) * ((a.den : ℚ) * (b.den : ℚ)) = 0 := by
      rw [key, h0, Int.cast_zero]
    have := mul_eq_zero.mp h1
    rcases this with h2 | h2
    · exact sub_eq_zero.mp h2
    · exact absurd h2 (ne_of_gt hd)
  have h1 : (1 : ℚ) ≤ |((a.num * b.den - b.num * a.den : ℤ) : ℚ)| := by
    rw [← Int.cast_abs]
    exact_mod_cast Int.one_le_abs hz
  have h2 : |a - b| * ((a.den : ℚ) * (b.den : ℚ))
      = |((a.num * b.den - b.num * a.den : ℤ) : ℚ)| := by
    rw [← key, abs_mul, abs_of_pos hd]
  rw [div_le_iff₀ hd, h2]
  exact h1

/-- A rational strictly between two others at Farey distance
(`hi - lo = 1/(lo.den * hi.den)`) has denominator at least the sum of
their denominators. -/
theorem farey_gap (lo hi s : ℚ)
    (hgap : hi - lo = 1 / ((lo.den : ℚ) * (hi.den : ℚ)))
    (h1 : lo < s) (h2 : s < hi) : lo.den + hi.den ≤ s.den := by
  have d1 := dist_lb s lo (ne_of_gt h1)
  have d2 := dist_lb hi s (ne_of_gt h2)
  rw [abs_of_pos (by linarith : (0 : ℚ) < s - lo)] at d1
  rw [abs_of_pos (by linarith : (0 : ℚ) < hi - s)] at d2
  have hl : (0 : ℚ) < (lo.den : ℚ) := by positivity
  have hh : (0 : ℚ) < (hi.den : ℚ) := by positivity
  have hsp : (0 : ℚ) < (s.den : ℚ) := by positivity
  have e1 : 1 ≤ (s - lo) * ((s.den : ℚ) * (lo.den : ℚ)) := by
    rw [div_le_iff₀ (by positivity)] at d1
    linarith
  have e2 : 1 ≤ (hi - s) * ((hi.den : ℚ) * (s.den : ℚ)) := by
    rw [div_le_iff₀ (by positivity)] at d2
    linarith
  have e3 : (hi - lo) * ((lo.den : ℚ) * (hi.den : ℚ)) = 1 := by
    rw [hgap]
    field_simp
  have f1 : (hi.den : ℚ) * 1 ≤ (hi.den : ℚ) * ((s - lo) * ((s.den : ℚ) * (lo.den : ℚ))) :=
    mul_le_mul_of_nonneg_left e1 hh.le
  have f2 : (lo.den : ℚ) * 1 ≤ (lo.den : ℚ) * ((hi - s) * ((hi.den : ℚ) * (s.den : ℚ))) :=
    mul_le_mul_of_nonneg_left e2 hl.le
  have f3 : (hi.den : ℚ) * ((s - lo) * ((s.den : ℚ) * (lo.den : ℚ)))
      + (lo.den : ℚ) * ((hi - s) * ((hi.den : ℚ) * (s.den : ℚ)))
      = (s.den : ℚ) * ((hi - lo) * ((lo.den : ℚ) * (hi.den : ℚ))) := by ring
  have f4 : (s.den : ℚ) * ((hi - lo) * ((lo.den : ℚ) * (hi.den : ℚ))) = (s.den : ℚ) := by
    rw [e3]
    ring
  have key : ((lo.den : ℚ) + (hi.den : ℚ)) ≤ (s.den : ℚ) := by linarith
  exact_mod_cast key

/-- Euclidean step preserves the gcd:
`gcd n (m % n) = gcd m n`. -/
theorem int_gcd_emod (m n : ℤ) : Int.gcd n (m % n) = Int.gcd m n := by
  apply Nat.dvd_antisymm
  · have hn : (Int.gcd n (m % n) : ℤ) ∣ n := Int.gcd_dvd_left
    have hr : (Int.gcd n (m % n) : ℤ) ∣ m % n := Int.gcd_dvd_right
    have h1 : (Int.gcd n (m % n) : ℤ) ∣ m := by
      have hm : n * (m / n) + m % n = m := Int.ediv_add_emod m n
      calc (Int.gcd n (m % n) : ℤ) ∣ n * (m / n) + m % n := dvd_add (hn.mul_right _) hr
        _ = m := hm
    have h2 : (Int.gcd n (m % n) : ℤ) ∣ (Int.gcd m n : ℤ) := Int.dvd_gcd h1 hn
    exact_mod_cast h2
  · have hm : (Int.gcd m n : ℤ) ∣ m := Int.gcd_dvd_left
    have hn : (Int.gcd m n : ℤ) ∣ n := Int.gcd_dvd_right
    have h1 : (Int.gcd m n : ℤ) ∣ m % n := by
      rw [Int.emod_def]
      exact dvd_sub hm (hn.mul_right _)
    have h2 : (Int.gcd m n : ℤ) ∣ (Int.gcd n (m % n) : ℤ) := Int.dvd_gcd hn h1
    exact_mod_cast h2

/-- Invariant of the continued-fraction loop of `limit_denominator`,
relating a loop state `(p0, q0, p1, q1, n, d)` to the input fraction
`N / D` (in lowest terms, `maxd < D`). -/
structure LDInv (maxd N D p0 q0 p1 q1 n d : ℤ) : Prop where
  hA1 : p1 * n + p0 * d = N
  hA2 : q1 * n + q0 * d = D
  hdet : p1 * q0 - p0 * q1 = 1 ∨ p0 * q1 - p1 * q0 = 1
  hq0 : 0 ≤ q0
  hq01 : q0 ≤ q1
  hq1m : q1 ≤ maxd
  hq1 : 1 ≤ q1
  hq0e : q0 = 0 → q1 = 1
  hqe : q0 = q1 → q1 = 1
  hd : 1 ≤ d
  hnd : d < n
  hgcd : Int.gcd n d = 1

/-- Running the loop from a state satisfying `LDInv` with enough fuel
(the remainder denominator `d` strictly decreases, so `fuel ≥ d`
suffices) ends in a state satisfying `LDInv` at which the break
condition `maxd < q0 + (n // d) * q1` holds. -/
theorem ldLoop_sound (maxd N D : ℤ) (hD : maxd < D) :
    ∀ (fuel : ℕ) (p0 q0 p1 q1 n d : ℤ), LDInv maxd N D p0 q0 p1 q1 n d →
      d ≤ (fuel : ℤ) →
      ∃ P0 Q0 P1 Q1 n' d',
        ldLoop maxd fuel p0 q0 p1 q1 n d = (P0, Q0, P1, Q1, n', d') ∧
        LDInv maxd N D P0 Q0 P1 Q1 n' d' ∧ maxd < Q0 + n'.fdiv d' * Q1 := by
  intro fuel
  induction fuel with
  | zero =>
    intro p0 q0 p1 q1 n d hI hf
    exfalso
    have h1 := hI.hd
    push_cast at hf
    omega
  | succ fuel ih =>
    intro p0 q0 p1 q1 n d hI hf
    have hd0 : (0 : ℤ) < d := hI.hd
    have hfd : n.fdiv d = n / d := Int.fdiv_eq_ediv n hd0.le
    by_cases hbr : maxd < q0 + n.fdiv d * q1
    · refine ⟨p0, q0, p1, q1, n, d, ?_, hI, hbr⟩
      show ldLoop maxd (fuel + 1) p0 q0 p1 q1 n d = _
      rw [ldLoop]
      simp only [if_pos hbr]
    · set a := n.fdiv d with ha
      have hstep : ldLoop maxd (fuel + 1) p0 q0 p1 q1 n d
          = ldLoop maxd fuel p1 q1 (p0 + a * p1) (q0 + a * q1) d (n - a * d) := by
        rw [ldLoop]
        simp only [if_neg hbr]
      have hnr : d * a + n % d = n := by rw [hfd]; exact Int.ediv_add_emod n d
      have hrdef : n - a * d = n % d := by linarith
      have hr0 : 0 ≤ n - a * d := by rw [hrdef]; exact Int.emod_nonneg n (ne_of_gt hd0)
      have hrd : n - a * d < d := by rw [hrdef]; exact Int.emod_lt_of_pos n hd0
      have ha1 : 1 ≤ a := by
        rw [hfd, Int.le_ediv_iff_mul_le hd0]
        linarith [hI.hnd]
      have hq2m : q0 + a * q1 ≤ maxd := not_lt.mp hbr
      have hq2ge : q1 ≤ q0 + a * q1 := by
        have h1 : q1 ≤ a * q1 := le_mul_of_one_le_left (by linarith [hI.hq1]) ha1
        linarith [hI.hq0]
      have hA2' : (q0 + a * q1) * d + q1 * (n - a * d) = D := by
        linear_combination hI.hA2
      have hgcd' : Int.gcd d (n - a * d) = 1 := by
        rw [hrdef, int_gcd_emod, hI.hgcd]
      have hd' : 1 ≤ n - a * d := by
        rcases lt_or_le 0 (n - a * d) with h | h
        · linarith
        · exfalso
          have hz : n - a * d = 0 := le_antisymm h hr0
          have hd1 : d = 1 := by
            rw [hz, Int.gcd_zero_right] at hgcd'
            rcases Int.natAbs_eq d with h2 | h2 <;> omega
          rw [hz, hd1] at hA2'
          have hcontr : q0 + a * q1 = D := by linarith
          linarith [hq2m, hD]
      have hI' : LDInv maxd N D p1 q1 (p0 + a * p1) (q0 + a * q1) d (n - a * d) := by
        refine ⟨?_, ?_, ?_, ?_, ?_, ?_, ?_, ?_, ?_, ?_, ?_, ?_⟩
        · linear_combination hI.hA1
        · linear_combination hI.hA2
        · rcases hI.hdet with h | h
          · right; linear_combination h
          · left; linear_combination h
        · linarith [hI.hq1]
        · exact hq2ge
        · exact hq2m
        · linarith [hI.hq1, hq2ge]
        · intro h
          exact absurd h (by linarith [hI.hq1])
        · intro h
          have e1 : q0 + (a - 1) * q1 = 0 := by linear_combination -h
          have e2 : 0 ≤ (a - 1) * q1 := mul_nonneg (by linarith) (by linarith [hI.hq1])
          have e3 : q0 = 0 := by linarith [hI.hq0]
          have e4 : (a - 1) * q1 = 0 := by linarith
          have e5 : a = 1 := by
            rcases mul_eq_zero.mp e4 with h5 | h5
            · linarith
            · exfalso; linarith [hI.hq1]
          have e6 : q1 = 1 := hI.hq0e e3
          rw [e3, e5, e6]; ring
        · exact hd'
        · exact hrd
        · exact hgcd'
      have hfuel' : n - a * d ≤ (fuel : ℤ) := by
        have h7 : n - a * d < (fuel : ℤ) + 1 := by
          push_cast at hf
          linarith [hrd, hf]
        exact Int.lt_add_one_iff.mp h7
      rw [hstep]
      exact ih p1 q1 (p0 + a * p1) (q0 + a * q1) d (n - a * d) hI' hfuel'

/-- Entering the loop from the Python initial state
`p0, q0, p1, q1 = 0, 1, 1, 0`: with `1 ≤ maxd` the first iteration
always recurses (its `q2` is `1`), establishing the invariant. -/
theorem ldLoop_entry (maxd N D : ℤ) (fuel : ℕ) (hm : 1 ≤ maxd)
    (hD : maxd < D) (hg : Int.gcd N D = 1) (hfuel : D ≤ (fuel : ℤ)) :
    ∃ P0 Q0 P1 Q1 n' d',
      ldLoop maxd fuel 0 1 1 0 N D = (P0, Q0, P1, Q1, n', d') ∧
      LDInv maxd N D P0 Q0 P1 Q1 n' d' ∧ maxd < Q0 + n'.fdiv d' * Q1 := by
  have hD0 : (0 : ℤ) < D := by linarith
  cases fuel with
  | zero =>
    exfalso
    push_cast at hfuel
    linarith
  | succ f =>
    have hfd : N.fdiv D = N / D := Int.fdiv_eq_ediv N hD0.le
    set a := N.fdiv D with ha
    have hnobr : ¬ maxd < 1 + a * 0 := by
      simp only [mul_zero, add_zero]
      linarith
    have hstep : ldLoop maxd (f + 1) 0 1 1 0 N D
        = ldLoop maxd f 1 0 (0 + a * 1) (1 + a * 0) D (N - a * D) := by
      rw [ldLoop]
      simp only [if_neg hnobr]
    have hargs : (0 + a * 1 : ℤ) = a ∧ (1 + a * 0 : ℤ) = 1 := by constructor <;> ring
    rw [hargs.1, hargs.2] at hstep
    have hnr : D * a + N % D = N := by rw [hfd]; exact Int.ediv_add_emod N D
    have hrdef : N - a * D = N % D := by linarith
    have hr0 : 0 ≤ N - a * D := by rw [hrdef]; exact Int.emod_nonneg N (ne_of_gt hD0)
    have hrD : N - a * D < D := by rw [hrdef]; exact Int.emod_lt_of_pos N hD0
    have hgcd2 : Int.gcd D (N - a * D) = 1 := by
      rw [hrdef, int_gcd_emod, hg]
    have hd1 : 1 ≤ N - a * D := by
      rcases lt_or_le 0 (N - a * D) with h | h
      · linarith
      · exfalso
        have hz : N - a * D = 0 := le_antisymm h hr0
        rw [hz, Int.gcd_zero_right] at hgcd2
        rcases Int.natAbs_eq D with h2 | h2 <;> omega
    have hI2 : LDInv maxd N D 1 0 a 1 D (N - a * D) := by
      refine ⟨?_, ?_, ?_, ?_, ?_, ?_, ?_, ?_, ?_, ?_, ?_, ?_⟩
      · linarith
      · ring
      · right; ring
      · norm_num
      · norm_num
      · exact hm
      · norm_num
      · intro _; rfl
      · intro h; exact absurd h (by norm_num)
      · exact hd1
      · exact hrD
      · exact hgcd2
    have hfuel2 : N - a * D ≤ (f : ℤ) := by
      have h7 : N - a * D < (f : ℤ) + 1 := by
        push_cast at hfuel
        linarith
      exact Int.lt_add_one_iff.mp h7
    rw [hstep]
    exact ldLoop_sound maxd N D hD f 1 0 a 1 D (N - a * D) hI2 hfuel2

/-- `mkRat` of a coprime pair with positive denominator keeps the
numerator and the denominator. -/
theorem mkRat_num_den_cop (p q : ℤ) (hq : 0 < q) (hcop : Int.gcd p q = 1) :
    (mkRat p q.toNat).num = p ∧ (mkRat p q.toNat).den = q.toNat := by
  have hq0 : q.toNat ≠ 0 := by omega
  have hg : p.natAbs.gcd q.toNat = 1 := by
    have hqa : q.natAbs = q.toNat := by omega
    rw [← hqa]
    exact hcop
  have h1 : mkRat p q.toNat = Rat.normalize p q.toNat hq0 := by
    rw [mkRat]
    simp [hq0]
  rw [h1, Rat.normalize_eq]
  simp [hg]

/-- Value of `mkRat` over a nonnegative integer denominator. -/
theorem mkRat_toNat_eq_div (p q : ℤ) (hq : 0 ≤ q) :
    mkRat p q.toNat = (p : ℚ) / (q : ℚ) := by
  rw [Rat.mkRat_eq_div]
  congr 1
  exact_mod_cast congrArg (fun z : ℤ => (z : ℚ)) (Int.toNat_of_nonneg hq)

/-- If `x` lies strictly between the Farey neighbours `lo < hi` and `c`
is at most as far from `x` as either of them, then `c` is at least as
close to `x` as any fraction `s` with denominator at most `maxd`, and
only the two neighbours can attain the distance of `c`. -/
theorem endpoint_best (x lo hi s c : ℚ) (maxd : ℕ)
    (hlo : lo < x) (hhi : x < hi)
    (hgap : hi - lo = 1 / ((lo.den : ℚ) * (hi.den : ℚ)))
    (hbig : maxd < lo.den + hi.den)
    (hs : s.den ≤ maxd)
    (hcl : |x - c| ≤ x - lo) (hch : |x - c| ≤ hi - x) :
    |x - c| ≤ |x - s| ∧ (|x - s| = |x - c| → s = lo ∨ s = hi) := by
  by_cases hsl : s = lo
  · subst hsl
    constructor
    · rw [abs_of_pos (by linarith : (0 : ℚ) < x - s)]
      exact hcl
    · intro _; left; rfl
  by_cases hsh : s = hi
  · subst hsh
    constructor
    · rw [abs_of_neg (by linarith : x - s < 0), neg_sub]
      exact hch
    · intro _; right; rfl
  have hout : s ≤ lo ∨ hi ≤ s := by
    by_contra h
    push_neg at h
    have := farey_gap lo hi s hgap h.1 h.2
    omega
  rcases hout with h | h
  · have hslo : s < lo := lt_of_le_of_ne h hsl
    have hst : |x - c| < |x - s| := by
      rw [abs_of_pos (by linarith : (0 : ℚ) < x - s)]
      linarith
    exact ⟨hst.le, fun heq => absurd heq (by linarith)⟩
  · have hshi : hi < s := lt_of_le_of_ne h (Ne.symm hsh)
    have hst : |x - c| < |x - s| := by
      rw [abs_of_neg (by linarith : x - s < 0), neg_sub]
      linarith
    exact ⟨hst.le, fun heq => absurd heq (by linarith)⟩

/-- `limit_denominator x maxd` (for `2 ≤ maxd`): the result has
denominator at most `maxd`, minimizes the distance to `x` among all
fractions with denominator at most `maxd`, and any *other* such
fraction at the same distance has a strictly larger denominator. -/
theorem limit_denominator_best (maxd : ℕ) (hm : 2 ≤ maxd) (x : ℚ)
    (s : ℚ) (hs : s.den ≤ maxd) :
    (limit_denominator x maxd).den ≤ maxd
    ∧ |x - limit_denominator x maxd| ≤ |x - s|
    ∧ (|x - s| = |x - limit_denominator x maxd| →
        s = limit_denominator x maxd ∨ (limit_denominator x maxd).den < s.den) := by
  by_cases hden : x.den ≤ maxd
  · have he : limit_denominator x maxd = x := by
      rw [limit_denominator, if_pos hden]
    rw [he]
    refine ⟨hden, by simpa using abs_nonneg (x - s), fun heq => Or.inl ?_⟩
    have h0 : |x - s| = 0 := by simpa using heq
    have h1 : x - s = 0 := abs_eq_zero.mp h0
    linarith [sub_eq_zero.mp h1]
  · have hD : maxd < x.den := not_le.mp hden
    have hgx : Int.gcd x.num (x.den : ℤ) = 1 := by
      have h1 := x.reduced
      simpa [Int.gcd, Int.natAbs_ofNat] using h1
    have hDi : ((maxd : ℕ) : ℤ) < (x.den : ℤ) := by exact_mod_cast hD
    have hm1 : (1 : ℤ) ≤ ((maxd : ℕ) : ℤ) := by exact_mod_cast (by omega : 1 ≤ maxd)
    have hm2 : (2 : ℤ) ≤ ((maxd : ℕ) : ℤ) := by exact_mod_cast hm
    obtain ⟨p0, q0, p1, q1, n, d, hloop, hI, hbrk⟩ :=
      ldLoop_entry (maxd : ℤ) x.num (x.den : ℤ) x.den hm1 hDi hgx
        (by exact_mod_cast le_refl (x.den : ℤ))
    have hle : limit_denominator x maxd
        = (if 2 * d * (q0 + ((maxd : ℤ) - q0).fdiv q1 * q1) ≤ (x.den : ℤ)
           then mkRat p1 q1.toNat
           else mkRat (p0 + ((maxd : ℤ) - q0).fdiv q1 * p1)
             (q0 + ((maxd : ℤ) - q0).fdiv q1 * q1).toNat) := by
      rw [limit_denominator, if_neg hden, hloop]
    set k := ((maxd : ℤ) - q0).fdiv q1 with hk
    -- integer facts at the break state
    have hd0 : (0 : ℤ) < d := hI.hd
    have hq1p : (0 : ℤ) < q1 := hI.hq1
    have hkf : k = ((maxd : ℤ) - q0) / q1 := by
      rw [hk]; exact Int.fdiv_eq_ediv _ hq1p.le
    have hMq0 : (0 : ℤ) ≤ (maxd : ℤ) - q0 := by linarith [hI.hq01, hI.hq1m]
    have hk0 : (0 : ℤ) ≤ k := by rw [hkf]; exact Int.ediv_nonneg hMq0 hq1p.le
    have hkle : k * q1 ≤ (maxd : ℤ) - q0 := by
      rw [hkf]; exact Int.ediv_mul_le _ (ne_of_gt hq1p)
    have hklt : (maxd : ℤ) - q0 < (k + 1) * q1 := by
      rw [hkf]; exact Int.lt_ediv_add_one_mul_self _ hq1p
    have hQm : q0 + k * q1 ≤ (maxd : ℤ) := by linarith [hkle]
    have hQbig : (maxd : ℤ) < q1 + (q0 + k * q1) := by
      have h1 : (k + 1) * q1 = k * q1 + q1 := by ring
      linarith [hklt]
    set A := n.fdiv d with hA
    have hfd : A = n / d := by rw [hA]; exact Int.fdiv_eq_ediv n hd0.le
    have hAd : A * d ≤ n := by
      rw [hfd]; have h1 := Int.ediv_mul_le n (ne_of_gt hd0); linarith [h1]
    have hkA : k < A := by
      have h1 : k * q1 < A * q1 := by linarith [hkle, hbrk]
      exact lt_of_mul_lt_mul_right h1 hq1p.le
    have hnkd : d ≤ n - k * d := by
      have h1 : (k + 1) * d ≤ A * d := mul_le_mul_of_nonneg_right (by omega) hd0.le
      have h2 : (k + 1) * d = k * d + d := by ring
      linarith
    have hQ1 : (1 : ℤ) ≤ q0 + k * q1 := by
      by_cases hq00 : q0 = 0
      · have hq11 : q1 = 1 := hI.hq0e hq00
        have hkm : k = (maxd : ℤ) := by
          rw [hk, hq00, hq11]
          simpa using Int.fdiv_one ((maxd : ℤ) - 0)
        rw [hq00, hq11, hkm]
        linarith
      · have h1 : 1 ≤ q0 := by have := hI.hq0; omega
        have h2 : 0 ≤ k * q1 := mul_nonneg hk0 hq1p.le
        linarith
    -- the determinant sign
    have hsign : (p0 * q1 - p1 * q0 : ℤ) = 1 ∨ (p0 * q1 - p1 * q0 : ℤ) = -1 := by
      rcases hI.hdet with h | h
      · right; linarith
      · left; linarith
    -- coprimality of the two candidates
    have hcop1 : Int.gcd p1 q1 = 1 := by
      have h1 : (Int.gcd p1 q1 : ℤ) ∣ 1 := by
        rcases hI.hdet with h | h
        · rw [← h]
          exact dvd_sub (Int.gcd_dvd_left.mul_right q0) (Int.gcd_dvd_right.mul_left p0)
        · rw [← h]
          exact dvd_sub (Int.gcd_dvd_right.mul_left p0) (Int.gcd_dvd_left.mul_right q0)
      have h2 : Int.gcd p1 q1 ∣ 1 := by exact_mod_cast h1
      exact Nat.dvd_one.mp h2
    have hcop2 : Int.gcd (p0 + k * p1) (q0 + k * q1) = 1 := by
      have h1 : (Int.gcd (p0 + k * p1) (q0 + k * q1) : ℤ) ∣ 1 := by
        rcases hI.hdet with h | h
        · have h2 : p1 * (q0 + k * q1) - (p0 + k * p1) * q1 = 1 := by linear_combination h
          rw [← h2]
          exact dvd_sub (Int.gcd_dvd_right.mul_left p1) (Int.gcd_dvd_left.mul_right q1)
        · have h2 : (p0 + k * p1) * q1 - p1 * (q0 + k * q1) = 1 := by linear_combination h
          rw [← h2]
          exact dvd_sub (Int.gcd_dvd_left.mul_right q1) (Int.gcd_dvd_right.mul_left p1)
      have h2 : Int.gcd (p0 + k * p1) (q0 + k * q1) ∣ 1 := by exact_mod_cast h1
      exact Nat.dvd_one.mp h2
    -- the two candidate fractions
    have hr1nd := mkRat_num_den_cop p1 q1 hq1p hcop1
    have hr2nd := mkRat_num_den_cop (p0 + k * p1) (q0 + k * q1) (by linarith) hcop2
    set r1 : ℚ := mkRat p1 q1.toNat with hr1def
    set r2 : ℚ := mkRat (p0 + k * p1) (q0 + k * q1).toNat with hr2def
    have hr1v : r1 = (p1 : ℚ) / ((q1 : ℤ) : ℚ) := mkRat_toNat_eq_div p1 q1 hq1p.le
    have hr2v : r2 = ((p0 + k * p1 : ℤ) : ℚ) / ((q0 + k * q1 : ℤ) : ℚ) :=
      mkRat_toNat_eq_div _ _ (by linarith)
    -- positivity of the relevant casts
    have hq1c : (0 : ℚ) < ((q1 : ℤ) : ℚ) := by exact_mod_cast hq1p
    have hQc : (0 : ℚ) < ((q0 + k * q1 : ℤ) : ℚ) := by exact_mod_cast (by linarith : (0:ℤ) < q0 + k * q1)
    have hwc : (0 : ℚ) < ((x.den : ℕ) : ℚ) := by positivity
    have hdc : (0 : ℚ) < ((d : ℤ) : ℚ) := by exact_mod_cast hd0
    have hnkdc : (0 : ℚ) < ((n - k * d : ℤ) : ℚ) := by
      exact_mod_cast (by linarith : (0:ℤ) < n - k * d)
    -- multiplied-out value identities
    have e1 : r1 * ((q1 : ℤ) : ℚ) = (p1 : ℚ) := by
      rw [hr1v, div_mul_cancel₀ _ (ne_of_gt hq1c)]
    have e2 : r2 * ((q0 + k * q1 : ℤ) : ℚ) = ((p0 + k * p1 : ℤ) : ℚ) := by
      rw [hr2v, div_mul_cancel₀ _ (ne_of_gt hQc)]
    have hxD : x * ((x.den : ℕ) : ℚ) = ((x.num : ℤ) : ℚ) := (num_eq_mul_den x).symm
    have cA1 : (p1 : ℚ) * (n : ℚ) + (p0 : ℚ) * (d : ℚ) = ((x.num : ℤ) : ℚ) := by
      exact_mod_cast congrArg (fun z : ℤ => (z : ℚ)) hI.hA1
    have cA2 : (q1 : ℚ) * (n : ℚ) + (q0 : ℚ) * (d : ℚ) = ((x.den : ℕ) : ℚ) := by
      exact_mod_cast congrArg (fun z : ℤ => (z : ℚ)) hI.hA2
    have key1 : (x - r1) * (((q1 : ℤ) : ℚ) * ((x.den : ℕ) : ℚ))
        = ((p0 * q1 - p1 * q0 : ℤ) : ℚ) * ((d : ℤ) : ℚ) := by
      push_cast at e1 hxD cA1 cA2 ⊢
      linear_combination ((q1 : ℤ) : ℚ) * hxD - ((x.den : ℕ) : ℚ) * e1
        - ((q1 : ℤ) : ℚ) * cA1 + ((p1 : ℤ) : ℚ) * cA2
    have key2 : (r2 - x) * (((q0 + k * q1 : ℤ) : ℚ) * ((x.den : ℕ) : ℚ))
        = ((p0 * q1 - p1 * q0 : ℤ) : ℚ) * ((n - k * d : ℤ) : ℚ) := by
      push_cast at e2 hxD cA1 cA2 ⊢
      linear_combination ((x.den : ℕ) : ℚ) * e2
        - ((q0 : ℚ) + (k : ℚ) * (q1 : ℚ)) * hxD
        + ((q0 : ℚ) + (k : ℚ) * (q1 : ℚ)) * cA1
        - ((p0 : ℚ) + (k : ℚ) * (p1 : ℚ)) * cA2
    have gapkey : (r2 - r1) * (((q1 : ℤ) : ℚ) * ((q0 + k * q1 : ℤ) : ℚ))
        = ((p0 * q1 - p1 * q0 : ℤ) : ℚ) := by
      push_cast at e1 e2 ⊢
      linear_combination ((q1 : ℤ) : ℚ) * e2 - ((q0 : ℚ) + (k : ℚ) * (q1 : ℚ)) * e1
    -- absolute-value distance formulas (valid for either determinant sign)
    have habs1 : |((p0 * q1 - p1 * q0 : ℤ) : ℚ)| = 1 := by
      rcases hsign with h | h <;> rw [h] <;> norm_num
    have hdist1 : |x - r1| = ((d : ℤ) : ℚ) / (((q1 : ℤ) : ℚ) * ((x.den : ℕ) : ℚ)) := by
      rw [eq_div_iff (mul_pos hq1c hwc).ne']
      have h1 := congrArg abs key1
      rw [abs_mul (x - r1), abs_mul (((p0 * q1 - p1 * q0 : ℤ) : ℚ)), habs1, one_mul,
        abs_of_pos (mul_pos hq1c hwc), abs_of_pos hdc] at h1
      exact h1
    have hdist2 : |x - r2|
        = ((n - k * d : ℤ) : ℚ) / (((q0 + k * q1 : ℤ) : ℚ) * ((x.den : ℕ) : ℚ)) := by
      rw [eq_div_iff (mul_pos hQc hwc).ne']
      have h1 := congrArg abs key2
      rw [abs_mul (r2 - x), abs_mul (((p0 * q1 - p1 * q0 : ℤ) : ℚ)), habs1, one_mul,
        abs_of_pos (mul_pos hQc hwc), abs_of_pos hnkdc, abs_sub_comm] at h1
      exact h1
    -- tie condition, selection bridge
    have hselE : (n - k * d) * q1 - d * (q0 + k * q1)
        = ((x.den : ℕ) : ℤ) - 2 * d * (q0 + k * q1) := by
      linear_combination hI.hA2
    have htie : d * (q0 + k * q1) = (n - k * d) * q1 → d = q1 ∧ q1 < q0 + k * q1 := by
      intro ht
      have ht2 : q1 * n = d * q0 + 2 * k * d * q1 := by linear_combination - ht
      have hdq1dvd : d ∣ q1 := by
        have hco : IsCoprime (d : ℤ) n := by
          rw [← Int.gcd_eq_one_iff_coprime, Int.gcd_comm]
          exact hI.hgcd
        refine hco.dvd_of_dvd_mul_right ⟨q0 + 2 * k * q1, ?_⟩
        linear_combination ht2
      have hcoq : IsCoprime (q1 : ℤ) q0 := by
        rw [← Int.gcd_eq_one_iff_coprime]
        have h1 : (Int.gcd q1 q0 : ℤ) ∣ 1 := by
          rcases hI.hdet with h | h
          · rw [← h]
            exact dvd_sub (Int.gcd_dvd_right.mul_left p1) (Int.gcd_dvd_left.mul_left p0)
          · rw [← h]
            exact dvd_sub (Int.gcd_dvd_left.mul_left p0) (Int.gcd_dvd_right.mul_left p1)
        have h2 : Int.gcd q1 q0 ∣ 1 := by exact_mod_cast h1
        exact Nat.dvd_one.mp h2
      have hq1dvd : q1 ∣ d := by
        have hcoq2 : IsCoprime (q1 : ℤ) (q0 + q1 * (2 * k)) := hcoq.add_mul_left_right (2 * k)
        refine hcoq2.dvd_of_dvd_mul_right ⟨n, ?_⟩
        linear_combination - ht2
      have hdq : d = q1 := Int.dvd_antisymm hd0.le hq1p.le hdq1dvd hq1dvd
      refine ⟨hdq, ?_⟩
      rw [hdq] at ht2
      have hn2 : n = q0 + 2 * k * q1 := by
        have h3 : q1 * n = q1 * (q0 + 2 * k * q1) := by linear_combination ht2
        exact mul_left_cancel₀ (ne_of_gt hq1p) h3
      rcases lt_trichotomy k 1 with hk1 | hk1 | hk1
      · have hk00 : k = 0 := by omega
        exfalso
        have h4 := hI.hnd
        rw [hdq, hn2, hk00] at h4
        have h5 := hI.hq01
        omega
      · by_cases hq00 : q0 = 0
        · exfalso
          have hq11 : q1 = 1 := hI.hq0e hq00
          have hn3 : n = 2 := by rw [hn2, hq00, hk1, hq11]; ring
          have hd3 : d = 1 := by rw [hdq, hq11]
          have hA3 : A = 2 := by
            rw [hA, hn3, hd3]
            simpa using Int.fdiv_one 2
          rw [hq00, hA3, hq11] at hbrk
          omega
        · have h5 : 1 ≤ q0 := by have := hI.hq0; omega
          rw [hk1, one_mul]
          linarith
      · have h6 : 2 * q1 ≤ k * q1 := mul_le_mul_of_nonneg_right (by omega) hq1p.le
        linarith [hI.hq0]
    have htieQ : |x - r2| = |x - r1| → d = q1 ∧ q1 < q0 + k * q1 := by
      intro heq
      rw [hdist1, hdist2,
        div_eq_div_iff (mul_pos hQc hwc).ne' (mul_pos hq1c hwc).ne'] at heq
      have h7 : (((d : ℤ) : ℚ) * ((q0 + k * q1 : ℤ) : ℚ)) * ((x.den : ℕ) : ℚ)
          = (((n - k * d : ℤ) : ℚ) * ((q1 : ℤ) : ℚ)) * ((x.den : ℕ) : ℚ) := by
        linear_combination - heq
      have h8 := mul_right_cancel₀ (ne_of_gt hwc) h7
      have h9 : d * (q0 + k * q1) = (n - k * d) * q1 := by exact_mod_cast h8
      exact htie h9
    -- denominators against maxd
    have hq1m' := hI.hq1m
    have hr1dm : q1.toNat ≤ maxd := by omega
    have hr2dm : (q0 + k * q1).toNat ≤ maxd := by omega
    have hbig' : maxd < q1.toNat + (q0 + k * q1).toNat := by omega
    have hQz : (0 : ℤ) ≤ q0 + k * q1 := by linarith
    have hr1dc : ((r1.den : ℕ) : ℚ) = ((q1 : ℤ) : ℚ) := by
      rw [hr1nd.2]
      exact_mod_cast Int.toNat_of_nonneg hq1p.le
    have hr2dc : ((r2.den : ℕ) : ℚ) = ((q0 + k * q1 : ℤ) : ℚ) := by
      rw [hr2nd.2]
      exact_mod_cast Int.toNat_of_nonneg hQz
    -- comparison of the two candidate distances, driven by the selection test
    have hcmp : 2 * d * (q0 + k * q1) ≤ ((x.den : ℕ) : ℤ) → |x - r1| ≤ |x - r2| := by
      intro hc
      have hZ : d * (q0 + k * q1) ≤ (n - k * d) * q1 := by linarith [hselE]
      have hZc : ((d : ℤ) : ℚ) * ((q0 + k * q1 : ℤ) : ℚ)
          ≤ ((n - k * d : ℤ) : ℚ) * ((q1 : ℤ) : ℚ) := by exact_mod_cast hZ
      rw [hdist1, hdist2, div_le_div_iff (mul_pos hq1c hwc) (mul_pos hQc hwc)]
      have h10 := mul_le_mul_of_nonneg_right hZc hwc.le
      linarith [h10]
    have hcmp2 : ¬ (2 * d * (q0 + k * q1) ≤ ((x.den : ℕ) : ℤ)) → |x - r2| < |x - r1| := by
      intro hc
      have hc' := not_le.mp hc
      have hZ : (n - k * d) * q1 < d * (q0 + k * q1) := by linarith [hselE]
      have hZc : ((n - k * d : ℤ) : ℚ) * ((q1 : ℤ) : ℚ)
          < ((d : ℤ) : ℚ) * ((q0 + k * q1 : ℤ) : ℚ) := by exact_mod_cast hZ
      rw [hdist1, hdist2, div_lt_div_iff (mul_pos hQc hwc) (mul_pos hq1c hwc)]
      have h10 := mul_lt_mul_of_pos_right hZc hwc
      linarith [h10]
    rcases hsign with hS | hS
    · -- determinant +1 : r1 < x < r2
      have hSc : ((p0 * q1 - p1 * q0 : ℤ) : ℚ) = 1 := by exact_mod_cast hS
      have hlo : r1 < x := by
        have h1 := key1
        rw [hSc, one_mul] at h1
        have h2 : 0 < (x - r1) * (((q1 : ℤ) : ℚ) * ((x.den : ℕ) : ℚ)) := by
          rw [h1]; exact hdc
        rcases mul_pos_iff.mp h2 with ⟨h3, _⟩ | ⟨_, h3⟩
        · linarith [sub_pos.mp h3]
        · exact absurd h3 (not_lt.mpr (mul_pos hq1c hwc).le)
      have hhi : x < r2 := by
        have h1 := key2
        rw [hSc, one_mul] at h1
        have h2 : 0 < (r2 - x) * (((q0 + k * q1 : ℤ) : ℚ) * ((x.den : ℕ) : ℚ)) := by
          rw [h1]; exact hnkdc
        rcases mul_pos_iff.mp h2 with ⟨h3, _⟩ | ⟨_, h3⟩
        · linarith [sub_pos.mp h3]
        · exact absurd h3 (not_lt.mpr (mul_pos hQc hwc).le)
      have hgap : r2 - r1 = 1 / (((r1.den : ℕ) : ℚ) * ((r2.den : ℕ) : ℚ)) := by
        rw [hr1dc, hr2dc, eq_div_iff (mul_pos hq1c hQc).ne']
        rw [gapkey, hSc]
      have hbigd : maxd < r1.den + r2.den := by rw [hr1nd.2, hr2nd.2]; omega
      by_cases hcond : 2 * d * (q0 + k * q1) ≤ ((x.den : ℕ) : ℤ)
      · have hch : limit_denominator x maxd = r1 := by rw [hle, if_pos hcond]
        have hd12 := hcmp hcond
        have hcl : |x - r1| ≤ x - r1 := (abs_of_pos (sub_pos.mpr hlo)).le
        have hch2 : |x - r1| ≤ r2 - x := by
          have := abs_of_pos (sub_pos.mpr hhi)
          rw [abs_sub_comm] at this
          linarith [hd12]
        obtain ⟨hbest, htieOr⟩ := endpoint_best x r1 r2 s r1 maxd hlo hhi hgap hbigd hs hcl hch2
        rw [hch]
        refine ⟨by rw [hr1nd.2]; exact hr1dm, hbest, fun heq => ?_⟩
        rcases htieOr heq with hsl | hsh
        · exact Or.inl hsl
        · right
          rw [hsh] at heq
          obtain ⟨_, hq1Q⟩ := htieQ heq
          rw [hsh, hr1nd.2, hr2nd.2]
          omega
      · have hch : limit_denominator x maxd = r2 := by rw [hle, if_neg hcond]
        have hstrict := hcmp2 hcond
        have hcl : |x - r2| ≤ x - r1 := by
          have := abs_of_pos (sub_pos.mpr hlo)
          linarith [hstrict]
        have hch2 : |x - r2| ≤ r2 - x := by
          have h1 := abs_of_pos (sub_pos.mpr hhi)
          rw [abs_sub_comm] at h1
          linarith
        obtain ⟨hbest, htieOr⟩ := endpoint_best x r1 r2 s r2 maxd hlo hhi hgap hbigd hs hcl hch2
        rw [hch]
        refine ⟨by rw [hr2nd.2]; exact hr2dm, hbest, fun heq => ?_⟩
        rcases htieOr heq with hsl | hsh
        · exfalso
          rw [hsl] at heq
          linarith [hstrict, heq]
        · exact Or.inl hsh
    · -- determinant -1 : r2 < x < r1
      have hSc : ((p0 * q1 - p1 * q0 : ℤ) : ℚ) = -1 := by exact_mod_cast hS
      have hhi : x < r1 := by
        have h1 := key1
        rw [hSc] at h1
        have h2 : (r1 - x) * (((q1 : ℤ) : ℚ) * ((x.den : ℕ) : ℚ))
            = ((d : ℤ) : ℚ) := by linear_combination - h1
        have h3 : 0 < (r1 - x) * (((q1 : ℤ) : ℚ) * ((x.den : ℕ) : ℚ)) := by
          rw [h2]; exact hdc
        rcases mul_pos_iff.mp h3 with ⟨h4, _⟩ | ⟨_, h4⟩
        · linarith [sub_pos.mp h4]
        · exact absurd h4 (not_lt.mpr (mul_pos hq1c hwc).le)
      have hlo : r2 < x := by
        have h1 := key2
        rw [hSc] at h1
        have h2 : (x - r2) * (((q0 + k * q1 : ℤ) : ℚ) * ((x.den : ℕ) : ℚ))
            = ((n - k * d : ℤ) : ℚ) := by linear_combination - h1
        have h3 : 0 < (x - r2) * (((q0 + k * q1 : ℤ) : ℚ) * ((x.den : ℕ) : ℚ)) := by
          rw [h2]; exact hnkdc
        rcases mul_pos_iff.mp h3 with ⟨h4, _⟩ | ⟨_, h4⟩
        · linarith [sub_pos.mp h4]
        · exact absurd h4 (not_lt.mpr (mul_pos hQc hwc).le)
      have hgap : r1 - r2 = 1 / (((r2.den : ℕ) : ℚ) * ((r1.den : ℕ) : ℚ)) := by
        rw [hr1dc, hr2dc, eq_div_iff ?hne]
        case hne => exact (mul_pos hQc hq1c).ne'
        linear_combination - gapkey - hSc
      have hbigd : maxd < r2.den + r1.den := by rw [hr1nd.2, hr2nd.2]; omega
      by_cases hcond : 2 * d * (q0 + k * q1) ≤ ((x.den : ℕ) : ℤ)
      · have hch : limit_denominator x maxd = r1 := by rw [hle, if_pos hcond]
        have hd12 := hcmp hcond
        have hcl : |x - r1| ≤ x - r2 := by
          have := abs_of_pos (sub_pos.mpr hlo)
          linarith [hd12]
        have hch2 : |x - r1| ≤ r1 - x := by
          have h1 := abs_of_pos (sub_pos.mpr hhi)
          rw [abs_sub_comm] at h1
          linarith
        obtain ⟨hbest, htieOr⟩ := endpoint_best x r2 r1 s r1 maxd hlo hhi hgap hbigd hs hcl hch2
        rw [hch]
        refine ⟨by rw [hr1nd.2]; exact hr1dm, hbest, fun heq => ?_⟩
        rcases htieOr heq with hsl | hsh
        · right
          rw [hsl] at heq
          obtain ⟨_, hq1Q⟩ := htieQ heq
          rw [hsl, hr1nd.2, hr2nd.2]
          omega
        · exact Or.inl hsh
      · have hch : limit_denominator x maxd = r2 := by rw [hle, if_neg hcond]
        have hstrict := hcmp2 hcond
        have hcl : |x - r2| ≤ x - r2 := (abs_of_pos (sub_pos.mpr hlo)).le
        have hch2 : |x - r2| ≤ r1 - x := by
          have h1 := abs_of_pos (sub_pos.mpr hhi)
          rw [abs_sub_comm] at h1
          linarith [hstrict]
        obtain ⟨hbest, htieOr⟩ := endpoint_best x r2 r1 s r2 maxd hlo hhi hgap hbigd hs hcl hch2
        rw [hch]
        refine ⟨by rw [hr2nd.2]; exact hr2dm, hbest, fun heq => ?_⟩
        rcases htieOr heq with hsl | hsh
        · exact Or.inl hsl
        · exfalso
          rw [hsh] at heq
          linarith [hstrict, heq]

/-- C3, amended: for every nonnegative (finite) millimeter value, the
nearest fraction computed by `_convert_mm` has denominator at most 64
(not necessarily dividing 64), minimizes the absolute difference to the
decimal-inch value among all fractions with denominator at most 64, and
on a tie the returned fraction has the strictly smaller denominator. -/
theorem c3_amended (mm : ℚ) (_hmm : 0 ≤ mm) (s : ℚ) (hs : s.den ≤ 64) :
    (nearestOf mm).den ≤ 64
    ∧ |inchesOfMM mm - nearestOf mm| ≤ |inchesOfMM mm - s|
    ∧ (|inchesOfMM mm - s| = |inchesOfMM mm - nearestOf mm| →
        s = nearestOf mm ∨ (nearestOf mm).den < s.den) :=
  limit_denominator_best 64 (by norm_num) (inchesOfMM mm) s hs

/-- C3, witness: the amended claim at the input `8.4667` mm against the
competing fraction `1/2`. -/
theorem c3_amended_witness :
    (nearestOf (toDouble (mkRat 84667 10000))).den ≤ 64
    ∧ |inchesOfMM (toDouble (mkRat 84667 10000)) - nearestOf (toDouble (mkRat 84667 10000))|
        ≤ |inchesOfMM (toDouble (mkRat 84667 10000)) - mkRat 1 2|
    ∧ (|inchesOfMM (toDouble (mkRat 84667 10000)) - mkRat 1 2|
          = |inchesOfMM (toDouble (mkRat 84667 10000))
              - nearestOf (toDouble (mkRat 84667 10000))| →
        mkRat 1 2 = nearestOf (toDouble (mkRat 84667 10000))
        ∨ (nearestOf (toDouble (mkRat 84667 10000))).den < (mkRat 1 2).den) :=
  c3_amended (toDouble (mkRat 84667 10000)) (by decide) (mkRat 1 2) (by decide)

/-! ## Claim C7: the `Negative` error is returned exactly on negative values -/

/-- C7, amended: whenever an input parses successfully, each handler
reports the negative-value error exactly when the parsed value is
negative (for the millimeter tab: `float`-negative, which is false for
NaN — the success branch is entered exactly when `not (v < 0)`, which
for NaN differs from `v >= 0`). -/
theorem c7_amended :
    (∀ (l : List Char) (f : ℚ), pyFraction (pyStrip l) = some f →
      (convert_fraction l = .negative ↔ f < 0))
    ∧ (∀ (l : List Char) (v : ℚ), inches_parse (pyStrip l) = .val v →
      (convert_inches l = .negative ↔ v < 0))
    ∧ (∀ (l : List Char) (v : FloatVal), pyFloat (pyStrip l) = some v →
      (convert_mm l = .negative ↔ floatLt0 v = true)) := by
  refine ⟨?_, ?_, ?_⟩
  · intro l f hf
    unfold convert_fraction
    rw [hf]
    dsimp only
    by_cases hneg : f < 0
    · simp [hneg]
    · rw [if_neg hneg]
      rcases hfe : floatE f with _ | dd <;> simp [hneg]
  · intro l v hv
    unfold convert_inches
    rw [hv]
    dsimp only
    by_cases hneg : v < 0
    · simp [hneg]
    · simp [hneg]
  · intro l v hv
    unfold convert_mm
    rw [hv]
    dsimp only
    rcases hb : floatLt0 v
    · rcases v with q | _ | _ | _ <;> simp [hb]
    · simp [hb]

/-- C7, witness: `Fraction("-1/2")` in the fraction tab and
`float("-5")` in the millimeter tab both produce the negative-value
error. -/
theorem c7_amended_witness :
    convert_fraction "-1/2".toList = .negative ∧ convert_mm "-5".toList = .negative := by
  constructor
  · exact (c7_amended.1 "-1/2".toList (mkRat (-1) 2) (by decide)).mpr (by decide)
  · exact (c7_amended.2.2 "-5".toList (.fin (mkRat (-5) 1)) (by decide)).mpr (by decide)

/-- C7, counterexample: the input `"nan"` parses successfully
(`float("nan")` is NaN), is not reported as `Negative` or non-numeric —
the success branch is entered — yet `NaN ≥ 0` is false, refuting
"the success branch is taken exactly when v ≥ 0". -/
theorem c7_counterexample :
    pyFloat (pyStrip "nan".toList) = some .nan
    ∧ convert_mm "nan".toList ≠ .notNumeric
    ∧ convert_mm "nan".toList ≠ .negative
    ∧ floatGe0 .nan = false := by
  refine ⟨by decide, by decide, by decide, by decide⟩

/-! ## Claim C10: the two parsers disagree on mixed-number inputs -/

/-- A digit is not whitespace. -/
theorem not_ws_of_isDigit (c : Char) (h : c.isDigit = true) : pyWS c = false := by
  rcases hws : pyWS c
  · rfl
  · exfalso
    have h2 : c = ' ' ∨ c = '\t' ∨ c = '\n' ∨ c = '\r' ∨ c = '\x0b' ∨ c = '\x0c' := by
      simpa [pyWS, or_assoc] using hws
    rcases h2 with rfl | rfl | rfl | rfl | rfl | rfl <;> exact absurd h (by decide)

/-- Every character of the input is in the post-sign remainder, unless
it is the consumed sign character. -/
theorem splitSign_cover (l : List Char) :
    ∀ c ∈ l, c ∈ (splitSign l).2 ∨ c = '+' ∨ c = '-' := by
  rcases l with _ | ⟨c0, r⟩
  · intro c hc
    exact absurd hc (List.not_mem_nil c)
  · intro c hc
    by_cases h1 : c0 = '+'
    · have hs : (splitSign (c0 :: r)).2 = r := by simp [splitSign, h1]
      rw [hs]
      rcases List.mem_cons.mp hc with rfl | hr
      · exact Or.inr (Or.inl h1)
      · exact Or.inl hr
    · by_cases h2 : c0 = '-'
      · have hs : (splitSign (c0 :: r)).2 = r := by simp [splitSign, h1, h2]
        rw [hs]
        rcases List.mem_cons.mp hc with rfl | hr
        · exact Or.inr (Or.inr h2)
        · exact Or.inl hr
      · have hs : (splitSign (c0 :: r)).2 = c0 :: r := by simp [splitSign, h1, h2]
        rw [hs]
        exact Or.inl hc

/-- A list whose digit-span has an empty remainder consists of digits. -/
theorem all_digits_of_drop_empty (l : List Char) (h : l.dropWhile Char.isDigit = [])
    (c : Char) (hc : c ∈ l) : c.isDigit = true := by
  have h1 : l.takeWhile Char.isDigit ++ l.dropWhile Char.isDigit = l :=
    List.takeWhile_append_dropWhile Char.isDigit l
  rw [h, List.append_nil] at h1
  rw [← h1] at hc
  exact List.mem_takeWhile_imp hc

/-- An exponent suffix accepted by `parseExp` contains no whitespace. -/
theorem parseExp_no_ws (l : List Char) (ex : ℤ) (h : parseExp l = some ex) :
    ∀ c ∈ l, pyWS c = false := by
  intro c hc
  rcases splitSign_cover l c hc with hc1 | rfl | rfl
  · unfold parseExp at h
    dsimp only at h
    split_ifs at h with hcc
    have hcc2 := hcc
    simp only [Bool.or_eq_true, Bool.not_eq_true', List.isEmpty_iff,
      List.isEmpty_eq_false, not_or, Bool.not_eq_false] at hcc2
    have hrest : ((splitSign l).2.span Char.isDigit).2 = [] := by
      rcases hrr : ((splitSign l).2.span Char.isDigit).2 with _ | _
      · rfl
      · exfalso
        apply hcc
        rw [hrr]
        simp
    rw [List.span_eq_take_drop] at hrest
    exact not_ws_of_isDigit c (all_digits_of_drop_empty _ hrest c hc1)
  · decide
  · decide

/-- A token accepted by the `Fraction` grammar contains no whitespace
(hence `Fraction(...)` rejects any string with interior whitespace). -/
theorem pyFraction_no_ws (l : List Char) (f : ℚ) (h : pyFraction l = some f) :
    ∀ c ∈ l, pyWS c = false := by
  intro c hc
  rcases splitSign_cover l c hc with hc1 | rfl | rfl
  rotate_left
  · decide
  · decide
  unfold pyFraction at h
  dsimp only at h
  rw [List.span_eq_take_drop] at h
  dsimp only at h
  have hl1 : (splitSign l).2
      = (splitSign l).2.takeWhile Char.isDigit ++ (splitSign l).2.dropWhile Char.isDigit :=
    (List.takeWhile_append_dropWhile Char.isDigit (splitSign l).2).symm
  rw [hl1] at hc1
  rcases List.mem_append.mp hc1 with hcds | hcr1
  · exact not_ws_of_isDigit c (List.mem_takeWhile_imp hcds)
  · rcases hr1e : (splitSign l).2.dropWhile Char.isDigit with _ | ⟨c1, r2⟩
    · rw [hr1e] at hcr1
      exact absurd hcr1 (List.not_mem_nil c)
    · rw [hr1e] at h hcr1
      dsimp only at h
      by_cases h1 : c1 = '/'
      · rw [if_pos h1] at h
        split_ifs at h with hA hB hC
        rcases List.mem_cons.mp hcr1 with rfl | hr2
        · rw [h1]; decide
        · have hB2 := hB
          simp only [Bool.or_eq_true, not_or, Bool.not_eq_true', Bool.not_eq_false,
            List.isEmpty_iff] at hB2
          have hrest : (r2.span Char.isDigit).2 = [] := by
            rcases hrr : (r2.span Char.isDigit).2 with _ | _
            · rfl
            · exfalso
              apply hB
              rw [hrr]
              simp
          rw [List.span_eq_take_drop] at hrest
          exact not_ws_of_isDigit c (all_digits_of_drop_empty r2 hrest c hr2)
      · rw [if_neg h1] at h
        by_cases h2 : c1 = '.'
        · rw [if_pos h2] at h
          rw [List.span_eq_take_drop] at h
          dsimp only at h
          split_ifs at h with hA
          rcases List.mem_cons.mp hcr1 with rfl | hr2
          · rw [h2]; decide
          · have hr2split : r2 = r2.takeWhile Char.isDigit ++ r2.dropWhile Char.isDigit :=
              (List.takeWhile_append_dropWhile Char.isDigit r2).symm
            rw [hr2split] at hr2
            rcases List.mem_append.mp hr2 with hcds2 | hcr3
            · exact not_ws_of_isDigit c (List.mem_takeWhile_imp hcds2)
            · rcases hr3e : r2.dropWhile Char.isDigit with _ | ⟨c2, r4⟩
              · rw [hr3e] at hcr3
                exact absurd hcr3 (List.not_mem_nil c)
              · rw [hr3e] at h hcr3
                dsimp only at h
                split_ifs at h with hE
                rcases List.mem_cons.mp hcr3 with rfl | hr4
                · rcases hE with rfl | rfl <;> decide
                · obtain ⟨ex, hex, _⟩ := Option.map_eq_some'.mp h
                  exact parseExp_no_ws r4 ex hex c hr4
        · rw [if_neg h2] at h
          split_ifs at h with hE hA
          rcases List.mem_cons.mp hcr1 with rfl | hr2
          · rcases hE with rfl | rfl <;> decide
          · obtain ⟨ex, hex, _⟩ := Option.map_eq_some'.mp h
            exact parseExp_no_ws r2 ex hex c hr2

/-- Leading whitespace does not change the token list. -/
theorem pyTokens_dropWhile (l : List Char) :
    pyTokens (l.dropWhile pyWS) = pyTokens l := by
  induction l with
  | nil => rfl
  | cons c cs ih =>
    by_cases hc : pyWS c
    · have h1 : (c :: cs).dropWhile pyWS = cs.dropWhile pyWS := by
        simp [List.dropWhile, hc]
      rw [h1, ih]
      simp [pyTokens, pyTokensAux, hc]
    · have h1 : (c :: cs).dropWhile pyWS = c :: cs := by
        simp [List.dropWhile, hc]
      rw [h1]

/-- A trailing whitespace character does not change the token list. -/
theorem pyTokensAux_append_ws (c : Char) (hc : pyWS c = true) :
    ∀ (l : List Char) (acc : List Char),
      pyTokensAux (l ++ [c]) acc = pyTokensAux l acc := by
  intro l
  induction l with
  | nil =>
    intro acc
    show pyTokensAux [c] acc = pyTokensAux [] acc
    unfold pyTokensAux
    rw [if_pos hc]
    by_cases ha : acc.isEmpty
    · rw [if_pos ha]
      have ha2 : acc = [] := List.isEmpty_iff.mp ha
      simp [ha2, pyTokensAux]
    · rw [if_neg ha]
      have ha2 : acc ≠ [] := by simpa [List.isEmpty_iff] using ha
      simp [ha2, pyTokensAux]
  | cons d ds ih =>
    intro acc
    show pyTokensAux (d :: (ds ++ [c])) acc = pyTokensAux (d :: ds) acc
    unfold pyTokensAux
    by_cases hd : pyWS d
    · rw [if_pos hd, if_pos hd]
      by_cases ha : acc.isEmpty
      · rw [if_pos ha, if_pos ha, ih]
      · rw [if_neg ha, if_neg ha, ih]
    · rw [if_neg hd, if_neg hd, ih]

/-- `str.strip()` does not change the token list of `str.split()`. -/
theorem pyTokens_strip (l : List Char) : pyTokens (pyStrip l) = pyTokens l := by
  unfold pyStrip
  rw [← pyTokens_dropWhile l]
  set m := l.dropWhile pyWS
  clear_value m
  induction m using List.reverseRecOn with
  | nil => rfl
  | append_singleton t c ih =>
    by_cases hc : pyWS c
    · have h1 : (t ++ [c]).reverse.dropWhile pyWS = t.reverse.dropWhile pyWS := by
        simp [List.reverse_append, List.dropWhile, hc]
      rw [h1, ih]
      exact (pyTokensAux_append_ws c hc t []).symm
    · have h1 : (t ++ [c]).reverse.dropWhile pyWS = c :: t.reverse := by
        simp [List.reverse_append, List.dropWhile, hc]
      rw [h1]
      simp
/-- On whitespace-free input, `str.split()` returns at most one token. -/
theorem pyTokensAux_no_ws (l : List Char) (h : ∀ c ∈ l, pyWS c = false) :
    ∀ acc : List Char,
      pyTokensAux l acc
        = if (acc.reverse ++ l).isEmpty then [] else [acc.reverse ++ l] := by
  induction l with
  | nil =>
    intro acc
    unfold pyTokensAux
    by_cases ha : acc.isEmpty
    · rw [if_pos ha]
      have h1 : acc = [] := List.isEmpty_iff.mp ha
      rw [h1]
      rfl
    · rw [if_neg ha]
      have h1 : acc ≠ [] := fun he => ha (by rw [he]; rfl)
      have h2 : ¬ (acc.reverse ++ []).isEmpty = true := by
        simp [List.isEmpty_iff, h1]
      rw [if_neg h2]
      simp
  | cons c cs ih =>
    intro acc
    have hc : pyWS c = false := h c (List.mem_cons_self c cs)
    have hcs : ∀ x ∈ cs, pyWS x = false := fun x hx => h x (List.mem_cons_of_mem c hx)
    unfold pyTokensAux
    rw [hc]
    show pyTokensAux cs (c :: acc) = _
    rw [ih hcs (c :: acc)]
    have h1 : (c :: acc).reverse ++ cs = acc.reverse ++ (c :: cs) := by simp
    rw [h1]

/-- C10: the parsing grammar is not uniform.  Any input that splits
into two whitespace-separated tokens — the first an integer, the second
accepted by the `Fraction` grammar (mixed numbers such as `"1 3/8"`) —
is rejected with a parse error by the fraction tab, whose
`Fraction(text)` parser admits no interior whitespace, yet is accepted
by the inches tab (its parse does not fail; the same text yields a
value, or at worst an overflow, never the parse-error label). -/
theorem c10_grammar_asymmetry (raw t1 t2 : List Char) (w : ℤ) (f : ℚ)
    (ht : pyTokens raw = [t1, t2]) (hw : pyInt t1 = some w)
    (hf : pyFraction t2 = some f) :
    convert_fraction raw = .parseError ∧ convert_inches raw ≠ .parseError := by
  constructor
  · unfold convert_fraction
    rcases hpf : pyFraction (pyStrip raw) with _ | g
    · rfl
    · exfalso
      have hnws := pyFraction_no_ws _ _ hpf
      have h1 := pyTokensAux_no_ws _ hnws []
      have h2 : pyTokens (pyStrip raw) = pyTokens raw := pyTokens_strip raw
      have h3 : pyTokensAux (pyStrip raw) [] = [t1, t2] := by
        show pyTokens (pyStrip raw) = [t1, t2]
        rw [h2, ht]
      rw [h3] at h1
      by_cases he : (([] : List Char).reverse ++ pyStrip raw).isEmpty
      · rw [if_pos he] at h1
        exact absurd h1 (by simp)
      · rw [if_neg he] at h1
        exact absurd h1 (by simp)
  · unfold convert_inches
    have h2 : pyTokens (pyStrip raw) = [t1, t2] := by rw [pyTokens_strip, ht]
    unfold inches_parse
    rw [h2]
    dsimp only
    rw [hw, hf]
    dsimp only
    rcases hfe : floatE (qadd (w : ℚ) f) with _ | dd
    · simp
    · dsimp only
      split_ifs <;> simp

/-- C10, witness: the input `"1 3/8"` errors in the fraction tab and is
accepted by the inches tab. -/
theorem c10_grammar_asymmetry_witness :
    convert_fraction "1 3/8".toList = .parseError
    ∧ convert_inches "1 3/8".toList ≠ .parseError :=
  c10_grammar_asymmetry "1 3/8".toList "1".toList "3/8".toList 1 (mkRat 3 8)
    (by decide) (by decide) (by decide)
